import Mathlib

set_option maxRecDepth 1000000

/-!
# Verification of the Rabin cryptosystem repository

Shallow embedding of `src/rabin/mod.rs` and `src/rabin_digital_signature/mod.rs`.
Arbitrary-precision unsigned integers (`BigUint`) are modelled as `ℕ`,
signed ones (`BigInt`) as `ℤ`; `modpow` is modular exponentiation,
`%` on non-negative values is Euclidean remainder.
-/

/-- `BigUint::modpow(base, exp, m)`: modular exponentiation. -/
def modpow (base exp m : ℕ) : ℕ := base ^ exp % m

/-- Modelled from the spec: `crate::utils::egcd` is not under `src/`; per §4.3
the extended Euclidean algorithm on `(p, q)` returns Bezout coefficients
`(g, yp, yq)` satisfying `yp·p + yq·q = g = gcd(p, q)`.  Fuel-based structural
recursion (the second argument decreases strictly, so fuel `b + 1` suffices). -/
def egcdAux : ℕ → ℕ → ℕ → ℤ × ℤ × ℤ
  | 0, a, _ => ((a : ℤ), 1, 0)
  | fuel + 1, a, b =>
    if b = 0 then ((a : ℤ), 1, 0)
    else
      let r := egcdAux fuel b (a % b)
      (r.1, r.2.2, r.2.1 - ((a / b : ℕ) : ℤ) * r.2.2)

/-- Modelled from the spec: extended gcd, `egcd a b = (g, x, y)` with
`a·x + b·y = g = gcd a b`. -/
def egcd (a b : ℕ) : ℤ × ℤ × ℤ := egcdAux (b + 1) a b

/-- `rabin::encrypt(message, n) = message.modpow(2, n)` (src/rabin/mod.rs:41-43). -/
def encrypt (message n : ℕ) : ℕ := modpow message 2 n

/-- `rabin::decrypt(ciphertext, (p, q))` (src/rabin/mod.rs:53-76): the four
CRT-combined candidate square roots `[r1, r2, r3, r4]`.  `(p+1) >> 2` is
`(p+1)/4`; Lean's `%` on `ℤ` is the Euclidean remainder, which agrees with the
source's truncated `BigInt` remainder everywhere the source is defined: `yp + n`
and `yq + n` are non-negative there (`to_biguint().unwrap()` would panic
otherwise), and `(t % n + n) % n` of a possibly negative `t % n` equals the
Euclidean `t % n`. -/
def decrypt (ciphertext : ℕ) (private_key : ℕ × ℕ) : List ℕ :=
  let p := private_key.1
  let q := private_key.2
  let n := p * q
  let mp := modpow ciphertext ((p + 1) / 4) p
  let mq := modpow ciphertext ((q + 1) / 4) q
  let yp := (egcd p q).2.1
  let yq := (egcd p q).2.2
  let yp_norm := (yp + (n : ℤ)) % (n : ℤ)
  let yq_norm := (yq + (n : ℤ)) % (n : ℤ)
  let ypN := yp_norm.toNat
  let yqN := yq_norm.toNat
  let r1 := (ypN * p * mq + yqN * q * mp) % n
  let r2 := (n - r1) % n
  let r3_int := (((ypN : ℤ) * p * mq - (yqN : ℤ) * q * mp)) % (n : ℤ)
  let r3 := ((r3_int + (n : ℤ)) % (n : ℤ)).toNat
  let r4 := (n - r3) % n
  [r1, r2, r3, r4]

/-- First `while` loop of `rabin::generate_keys` (src/rabin/mod.rs:22-24):
redraw `p` from the prime oracle `draw` until `p % 4 = 3`.  Returns the
accepted prime together with the next unused oracle index; `none` models a
loop still running after `fuel` iterations. -/
def retry_p (draw : ℕ → ℕ) : ℕ → ℕ → ℕ → Option (ℕ × ℕ)
  | 0, _, _ => none
  | fuel + 1, p, i => if p % 4 = 3 then some (p, i) else retry_p draw fuel (draw i) (i + 1)

/-- Second `while` loop of `rabin::generate_keys` (src/rabin/mod.rs:25-27):
redraw `q` until `q % 4 = 3` and `q ≠ p`. -/
def retry_q (draw : ℕ → ℕ) (p : ℕ) : ℕ → ℕ → ℕ → Option ℕ
  | 0, _, _ => none
  | fuel + 1, q, i =>
    if q % 4 = 3 ∧ p ≠ q then some q else retry_q draw p fuel (draw i) (i + 1)

/-- `rabin::generate_keys(bit_size)` (src/rabin/mod.rs:14-31).  The external
random-prime generator (`rng.gen_prime`) is modelled as an oracle stream
`draw : ℕ → ℕ`; `fuel` bounds the observation of each retry loop, `none`
modelling a run that has not terminated within `fuel` iterations.  Returns
`((p, q), n)` with `n = p * q`. -/
def generate_keys (draw : ℕ → ℕ) (fuel : ℕ) : Option ((ℕ × ℕ) × ℕ) :=
  match retry_p draw fuel (draw 0) 2 with
  | none => none
  | some (p, i) =>
    match retry_q draw p fuel (draw 1) i with
    | none => none
    | some q => some ((p, q), p * q)

/-- `BigUint::to_bytes_be`, auxiliary: big-endian base-256 digits of `x`
(empty for `x = 0`), with explicit fuel (`x` itself suffices). -/
def to_bytes_be_aux : ℕ → ℕ → List ℕ
  | 0, _ => []
  | fuel + 1, x => if x = 0 then [] else to_bytes_be_aux fuel (x / 256) ++ [x % 256]

/-- `BigUint::to_bytes_be`: big-endian byte representation (`[0]` for zero). -/
def to_bytes_be (x : ℕ) : List ℕ :=
  if x = 0 then [0] else to_bytes_be_aux x x

/-- `BigUint::from_bytes_be`: interpret a byte sequence as a big-endian
non-negative integer. -/
def from_bytes_be (bs : List ℕ) : ℕ :=
  bs.foldl (fun acc b => acc * 256 + b) 0

/-! ## The SHA-256 collaborator (`sha2` crate)

The signature module consumes SHA-256 as an external collaborator.  It is
embedded here in full (FIPS 180-4) over byte lists, on `ℕ` with explicit
reduction modulo `2^32`; it matches the standard test vectors for `""`, `"abc"`
and the two-block 56-byte vector. -/

/-- `2^32`, the word modulus of SHA-256. -/
def w32 : ℕ := 4294967296

/-- 32-bit right rotation. -/
def rotr32 (x n : ℕ) : ℕ := Nat.lor (x >>> n) ((x <<< (32 - n)) % w32)

/-- SHA-256 schedule function `σ₀`. -/
def sha_s0 (x : ℕ) : ℕ := Nat.xor (rotr32 x 7) (Nat.xor (rotr32 x 18) (x >>> 3))

/-- SHA-256 schedule function `σ₁`. -/
def sha_s1 (x : ℕ) : ℕ := Nat.xor (rotr32 x 17) (Nat.xor (rotr32 x 19) (x >>> 10))

/-- SHA-256 compression function `Σ₀`. -/
def sha_S0 (x : ℕ) : ℕ := Nat.xor (rotr32 x 2) (Nat.xor (rotr32 x 13) (rotr32 x 22))

/-- SHA-256 compression function `Σ₁`. -/
def sha_S1 (x : ℕ) : ℕ := Nat.xor (rotr32 x 6) (Nat.xor (rotr32 x 11) (rotr32 x 25))

/-- The 64 SHA-256 round constants (FIPS 180-4 §4.2.2, in decimal). -/
def sha_k : List ℕ :=
  [1116352408, 1899447441, 3049323471, 3921009573, 961987163, 1508970993,
   2453635748, 2870763221, 3624381080, 310598401, 607225278, 1426881987,
   1925078388, 2162078206, 2614888103, 3248222580, 3835390401, 4022224774,
   264347078, 604807628, 770255983, 1249150122, 1555081692, 1996064986,
   2554220882, 2821834349, 2952996808, 3210313671, 3336571891, 3584528711,
   113926993, 338241895, 666307205, 773529912, 1294757372, 1396182291,
   1695183700, 1986661051, 2177026350, 2456956037, 2730485921, 2820302411,
   3259730800, 3345764771, 3516065817, 3600352804, 4094571909, 275423344,
   430227734, 506948616, 659060556, 883997877, 958139571, 1322822218,
   1537002063, 1747873779, 1955562222, 2024104815, 2227730452, 2361852424,
   2428436474, 2756734187, 3204031479, 3329325298]

/-- The SHA-256 initial hash state (FIPS 180-4 §5.3.3, in decimal). -/
def sha_h0 : List ℕ :=
  [1779033703, 3144134277, 1013904242, 2773480762,
   1359893119, 2600822924, 528734635, 1541459225]

/-- Fixed-width big-endian byte representation. -/
def be_bytes : ℕ → ℕ → List ℕ
  | 0, _ => []
  | n + 1, x => be_bytes n (x / 256) ++ [x % 256]

/-- SHA-256 padding: append `0x80`, zeros to 56 mod 64, and the 64-bit bit length. -/
def sha256_pad (msg : List ℕ) : List ℕ :=
  msg ++ [128] ++ List.replicate ((64 - (msg.length + 9) % 64) % 64) 0 ++
    be_bytes 8 (8 * msg.length)

/-- Group bytes into big-endian 32-bit words (`fuel` counts words). -/
def words_of_bytes : ℕ → List ℕ → List ℕ
  | 0, _ => []
  | fuel + 1, bs =>
    match bs with
    | b0 :: b1 :: b2 :: b3 :: rest =>
      (((b0 * 256 + b1) * 256 + b2) * 256 + b3) :: words_of_bytes fuel rest
    | _ => []

/-- Extend the 16-word block to the 64-word message schedule. -/
def extendW : ℕ → List ℕ → List ℕ
  | 0, w => w
  | fuel + 1, w =>
    let i := w.length
    extendW fuel (w ++ [(sha_s1 (w.getD (i - 2) 0) + w.getD (i - 7) 0 +
      sha_s0 (w.getD (i - 15) 0) + w.getD (i - 16) 0) % w32])

/-- One SHA-256 compression round on the state `[a, b, c, d, e, f, g, h]`. -/
def sha_round (st : List ℕ) (kw : ℕ × ℕ) : List ℕ :=
  match st with
  | [a, b, c, d, e, f, g, h] =>
    let t1 := (h + sha_S1 e + Nat.xor (Nat.land e f) (Nat.land (Nat.xor e 4294967295) g) +
      kw.1 + kw.2) % w32
    let t2 := (sha_S0 a +
      Nat.xor (Nat.land a b) (Nat.xor (Nat.land a c) (Nat.land b c))) % w32
    [(t1 + t2) % w32, a, b, c, (d + t1) % w32, e, f, g]
  | _ => st

/-- Process one 64-byte block. -/
def sha_block (h : List ℕ) (blockBytes : List ℕ) : List ℕ :=
  let w := extendW 48 (words_of_bytes 16 blockBytes)
  let st := (sha_k.zip w).foldl sha_round h
  List.zipWith (fun x y => (x + y) % w32) h st

/-- Process all blocks (`fuel` counts blocks). -/
def sha_blocks : ℕ → List ℕ → List ℕ → List ℕ
  | 0, h, _ => h
  | fuel + 1, h, bytes =>
    if bytes.isEmpty then h
    else sha_blocks fuel (sha_block h (bytes.take 64)) (bytes.drop 64)

/-- SHA-256 digest (32 bytes) of a byte sequence. -/
def sha256 (msg : List ℕ) : List ℕ :=
  let padded := sha256_pad msg
  (sha_blocks (padded.length / 64) sha_h0 padded).foldr
    (fun wrd acc => be_bytes 4 wrd ++ acc) []

/-- The SHA-256 digest interpreted as a big-endian integer, exactly as the
source builds `c = BigUint::from_bytes_be(hash)`. -/
def sha256_int (msg : List ℕ) : ℕ := from_bytes_be (sha256 msg)

/-- `rabin_digital_signature::sign(message, (p, q))`
(src/rabin_digital_signature/mod.rs:13-36).  The external SHA-256 collaborator
is the parameter `hash : List ℕ → ℕ` (digest of a byte sequence, already
interpreted as an integer via `from_bytes_be`); the OS random generator is the
nonce oracle `nonces : ℕ → List ℕ`.  `fuel` bounds the observation of the
`loop`: `none` models a loop still running after `fuel` attempts — the source
has no attempt bound and no error return. -/
def sign (hash : List ℕ → ℕ) (nonces : ℕ → List ℕ) (message : ℕ)
    (private_key : ℕ × ℕ) : ℕ → ℕ → Option (ℕ × List ℕ)
  | 0, _ => none
  | fuel + 1, i =>
    let n := private_key.1 * private_key.2
    let u := nonces i
    let c := hash (to_bytes_be message ++ u)
    if c < n then
      let r1 := (decrypt c private_key).headI
      if encrypt r1 n = c then some (r1, u)
      else sign hash nonces message private_key fuel (i + 1)
    else sign hash nonces message private_key fuel (i + 1)

/-- `rabin_digital_signature::verify(message, (r, u), n)`
(src/rabin_digital_signature/mod.rs:47-56). -/
def verify (hash : List ℕ → ℕ) (message : ℕ) (signature : ℕ × List ℕ)
    (public_key : ℕ) : Bool :=
  let c := hash (to_bytes_be message ++ signature.2)
  encrypt signature.1 public_key == c

/-! ## Components of `decrypt`, named for the proofs -/

/-- The candidate modular square root `c^((p+1)/4) mod p` computed by `decrypt`. -/
def mroot (p c : ℕ) : ℕ := modpow c ((p + 1) / 4) p

/-- The normalized Bezout coefficient `yp` of `decrypt`. -/
def yp_norm_val (p q : ℕ) : ℕ :=
  (((egcd p q).2.1 + ((p * q : ℕ) : ℤ)) % ((p * q : ℕ) : ℤ)).toNat

/-- The normalized Bezout coefficient `yq` of `decrypt`. -/
def yq_norm_val (p q : ℕ) : ℕ :=
  (((egcd p q).2.2 + ((p * q : ℕ) : ℤ)) % ((p * q : ℕ) : ℤ)).toNat

/-- The first CRT combination `r1` of `decrypt`. -/
def r1_val (p q c : ℕ) : ℕ :=
  (yp_norm_val p q * p * mroot q c + yq_norm_val p q * q * mroot p c) % (p * q)

/-- The third CRT combination `r3` of `decrypt`. -/
def r3_val (p q c : ℕ) : ℕ :=
  ((((yp_norm_val p q : ℤ) * p * mroot q c - (yq_norm_val p q : ℤ) * q * mroot p c) %
      ((p * q : ℕ) : ℤ) + ((p * q : ℕ) : ℤ)) % ((p * q : ℕ) : ℤ)).toNat

/-- The residues of squares modulo `n`, as a list (used to state that a value is
not a quadratic residue without a quantifier). -/
def squares_mod (n : ℕ) : List ℕ :=
  (List.range n).map (fun x => x ^ 2 % n)

/-- Constant digest oracle (value 4), used for concrete witnesses in which the
signing loop must succeed with the toy key (7, 11). -/
def constHash4 : List ℕ → ℕ := fun _ => 4

/-- Nonce oracle producing empty nonces. -/
def emptyNonces : ℕ → List ℕ := fun _ => []

/-! ## Sanity evaluations of the embedding -/

example :
    sha256_int [] =
      0xe3b0c44298fc1c149afbf4c8996fb92427ae41e4649b934ca495991b7852b855 := by decide
example :
    sha256_int [97, 98, 99] =
      0xba7816bf8f01cfea414140de5dae2223b00361a396177a9cb410ff61f20015ad := by decide
example : encrypt 4 77 = 16 := by decide
example : decrypt 16 (7, 11) = [4, 73, 59, 18] := by decide
example : decrypt 49 (7, 11) = [70, 7, 70, 7] := by decide
example : decrypt 0 (7, 11) = [0, 0, 0, 0] := by decide
example : decrypt 2 (7, 11) = [74, 3, 52, 25] := by decide
example : egcd 7 11 = (1, -3, 2) := by decide
example : generate_keys (fun i => if i = 0 then 7 else 11) 1 = some ((7, 11), 77) := by decide

theorem decrypt_eq (c p q : ℕ) :
    decrypt c (p, q) =
      [r1_val p q c, (p * q - r1_val p q c) % (p * q),
       r3_val p q c, (p * q - r3_val p q c) % (p * q)] := rfl

/-! ## Bezout facts for the modelled `egcd` -/

theorem egcdAux_spec : ∀ fuel a b, b < fuel →
    (egcdAux fuel a b).1 = (Nat.gcd a b : ℤ) ∧
      (a : ℤ) * (egcdAux fuel a b).2.1 + (b : ℤ) * (egcdAux fuel a b).2.2 =
        (Nat.gcd a b : ℤ) := by
  intro fuel
  induction fuel with
  | zero => intro a b h; omega
  | succ fuel ih =>
    intro a b hb
    by_cases h0 : b = 0
    · subst h0; simp [egcdAux]
    · have hmod : a % b < fuel := lt_of_lt_of_le (Nat.mod_lt a (Nat.pos_of_ne_zero h0))
        (Nat.lt_succ_iff.mp hb)
      obtain ⟨ihg, ihb⟩ := ih b (a % b) hmod
      have hgcd : Nat.gcd b (a % b) = Nat.gcd a b := by
        rw [Nat.gcd_comm b (a % b), ← Nat.gcd_rec, Nat.gcd_comm]
      have ha : (a : ℤ) = (b : ℤ) * ((a / b : ℕ) : ℤ) + ((a % b : ℕ) : ℤ) := by
        exact_mod_cast (Nat.div_add_mod a b).symm
      constructor
      · simp only [egcdAux, if_neg h0]
        rw [ihg, hgcd]
      · simp only [egcdAux, if_neg h0]
        rw [← hgcd, ← ihb, ha]
        ring

theorem egcd_bezout (a b : ℕ) :
    (a : ℤ) * (egcd a b).2.1 + (b : ℤ) * (egcd a b).2.2 = (Nat.gcd a b : ℤ) :=
  (egcdAux_spec (b + 1) a b (Nat.lt_succ_self b)).2

/-! ## Modular congruences satisfied by the pieces of `decrypt` -/

/-- Adding `n` and reducing leaves the value unchanged modulo any divisor of `n`. -/
theorem toNat_norm_modEq (x : ℤ) {n d : ℕ} (hdn : d ∣ n) (hn : n ≠ 0) :
    ((((x + (n : ℤ)) % (n : ℤ)).toNat : ℤ)) ≡ x [ZMOD (d : ℤ)] := by
  have hn' : ((n : ℕ) : ℤ) ≠ 0 := by exact_mod_cast hn
  have hd : (d : ℤ) ∣ (n : ℤ) := Int.natCast_dvd_natCast.mpr hdn
  rw [Int.toNat_of_nonneg (Int.emod_nonneg _ hn')]
  calc (x + (n : ℤ)) % (n : ℤ) ≡ x + (n : ℤ) [ZMOD (d : ℤ)] :=
        Int.emod_emod_of_dvd _ hd
    _ ≡ x + 0 [ZMOD (d : ℤ)] := Int.ModEq.add_left x (Int.modEq_zero_iff_dvd.mpr hd)
    _ = x := by ring

theorem yq_norm_mul_modEq_one {p q : ℕ} (hcop : Nat.Coprime p q) (hn : p * q ≠ 0) :
    (yq_norm_val p q : ℤ) * q ≡ 1 [ZMOD (p : ℤ)] := by
  have h1 : (yq_norm_val p q : ℤ) ≡ (egcd p q).2.2 [ZMOD (p : ℤ)] :=
    toNat_norm_modEq _ (dvd_mul_right p q) hn
  have hbez := egcd_bezout p q
  rw [hcop] at hbez
  calc (yq_norm_val p q : ℤ) * q ≡ (egcd p q).2.2 * q [ZMOD (p : ℤ)] := h1.mul_right _
    _ = 1 - (p : ℤ) * (egcd p q).2.1 := by push_cast at hbez; linarith
    _ ≡ 1 - 0 [ZMOD (p : ℤ)] :=
        Int.ModEq.sub_left 1 (Int.modEq_zero_iff_dvd.mpr (Dvd.intro _ rfl))
    _ = 1 := by ring

theorem yp_norm_mul_modEq_one {p q : ℕ} (hcop : Nat.Coprime p q) (hn : p * q ≠ 0) :
    (yp_norm_val p q : ℤ) * p ≡ 1 [ZMOD (q : ℤ)] := by
  have h1 : (yp_norm_val p q : ℤ) ≡ (egcd p q).2.1 [ZMOD (q : ℤ)] :=
    toNat_norm_modEq _ (dvd_mul_left q p) hn
  have hbez := egcd_bezout p q
  rw [hcop] at hbez
  calc (yp_norm_val p q : ℤ) * p ≡ (egcd p q).2.1 * p [ZMOD (q : ℤ)] := h1.mul_right _
    _ = 1 - (q : ℤ) * (egcd p q).2.2 := by push_cast at hbez; linarith
    _ ≡ 1 - 0 [ZMOD (q : ℤ)] :=
        Int.ModEq.sub_left 1 (Int.modEq_zero_iff_dvd.mpr (Dvd.intro _ rfl))
    _ = 1 := by ring

theorem r1_modEq_p {p q : ℕ} (hcop : Nat.Coprime p q) (hn : p * q ≠ 0) (c : ℕ) :
    (r1_val p q c : ℤ) ≡ (mroot p c : ℤ) [ZMOD (p : ℤ)] := by
  have hd : (p : ℤ) ∣ ((p * q : ℕ) : ℤ) := by
    exact_mod_cast Int.natCast_dvd_natCast.mpr (dvd_mul_right p q)
  unfold r1_val
  calc ((((yp_norm_val p q * p * mroot q c + yq_norm_val p q * q * mroot p c) % (p * q) : ℕ)) : ℤ)
      ≡ ((yp_norm_val p q * p * mroot q c + yq_norm_val p q * q * mroot p c : ℕ) : ℤ)
        [ZMOD (p : ℤ)] := by
        rw [Int.natCast_mod]
        exact Int.emod_emod_of_dvd _ hd
    _ = (yp_norm_val p q : ℤ) * p * mroot q c + (yq_norm_val p q : ℤ) * q * mroot p c := by
        push_cast; ring
    _ ≡ 0 + 1 * (mroot p c : ℤ) [ZMOD (p : ℤ)] := by
        refine Int.ModEq.add ?_ (Int.ModEq.mul_right _ (yq_norm_mul_modEq_one hcop hn))
        exact Int.modEq_zero_iff_dvd.mpr ⟨(yp_norm_val p q : ℤ) * mroot q c, by ring⟩
    _ = (mroot p c : ℤ) := by ring

theorem r1_modEq_q {p q : ℕ} (hcop : Nat.Coprime p q) (hn : p * q ≠ 0) (c : ℕ) :
    (r1_val p q c : ℤ) ≡ (mroot q c : ℤ) [ZMOD (q : ℤ)] := by
  have hd : (q : ℤ) ∣ ((p * q : ℕ) : ℤ) := by
    exact_mod_cast Int.natCast_dvd_natCast.mpr (dvd_mul_left q p)
  unfold r1_val
  calc ((((yp_norm_val p q * p * mroot q c + yq_norm_val p q * q * mroot p c) % (p * q) : ℕ)) : ℤ)
      ≡ ((yp_norm_val p q * p * mroot q c + yq_norm_val p q * q * mroot p c : ℕ) : ℤ)
        [ZMOD (q : ℤ)] := by
        rw [Int.natCast_mod]
        exact Int.emod_emod_of_dvd _ hd
    _ = (yp_norm_val p q : ℤ) * p * mroot q c + (yq_norm_val p q : ℤ) * q * mroot p c := by
        push_cast; ring
    _ ≡ 1 * (mroot q c : ℤ) + 0 [ZMOD (q : ℤ)] := by
        refine Int.ModEq.add (Int.ModEq.mul_right _ (yp_norm_mul_modEq_one hcop hn)) ?_
        exact Int.modEq_zero_iff_dvd.mpr ⟨(yq_norm_val p q : ℤ) * mroot p c, by ring⟩
    _ = (mroot q c : ℤ) := by ring

theorem r3_val_cast {p q : ℕ} (hn : p * q ≠ 0) (c : ℕ) :
    (r3_val p q c : ℤ) =
      ((yp_norm_val p q : ℤ) * p * mroot q c - (yq_norm_val p q : ℤ) * q * mroot p c) %
        ((p * q : ℕ) : ℤ) := by
  have hn' : ((p * q : ℕ) : ℤ) ≠ 0 := by exact_mod_cast hn
  unfold r3_val
  have hcollapse : ∀ t : ℤ, (t % ((p * q : ℕ) : ℤ) + ((p * q : ℕ) : ℤ)) % ((p * q : ℕ) : ℤ) =
      t % ((p * q : ℕ) : ℤ) := by
    intro t
    simp [Int.add_emod, Int.emod_emod_of_dvd]
  rw [hcollapse, Int.toNat_of_nonneg (Int.emod_nonneg _ hn')]

theorem r3_modEq_p {p q : ℕ} (hcop : Nat.Coprime p q) (hn : p * q ≠ 0) (c : ℕ) :
    (r3_val p q c : ℤ) ≡ -(mroot p c : ℤ) [ZMOD (p : ℤ)] := by
  have hd : (p : ℤ) ∣ ((p * q : ℕ) : ℤ) := by
    exact_mod_cast Int.natCast_dvd_natCast.mpr (dvd_mul_right p q)
  rw [r3_val_cast hn]
  calc ((yp_norm_val p q : ℤ) * p * mroot q c - (yq_norm_val p q : ℤ) * q * mroot p c) %
        ((p * q : ℕ) : ℤ)
      ≡ (yp_norm_val p q : ℤ) * p * mroot q c - (yq_norm_val p q : ℤ) * q * mroot p c
        [ZMOD (p : ℤ)] := Int.emod_emod_of_dvd _ hd
    _ ≡ 0 - 1 * (mroot p c : ℤ) [ZMOD (p : ℤ)] := by
        refine Int.ModEq.sub ?_ (Int.ModEq.mul_right _ (yq_norm_mul_modEq_one hcop hn))
        exact Int.modEq_zero_iff_dvd.mpr ⟨(yp_norm_val p q : ℤ) * mroot q c, by ring⟩
    _ = -(mroot p c : ℤ) := by ring

theorem r3_modEq_q {p q : ℕ} (hcop : Nat.Coprime p q) (hn : p * q ≠ 0) (c : ℕ) :
    (r3_val p q c : ℤ) ≡ (mroot q c : ℤ) [ZMOD (q : ℤ)] := by
  have hd : (q : ℤ) ∣ ((p * q : ℕ) : ℤ) := by
    exact_mod_cast Int.natCast_dvd_natCast.mpr (dvd_mul_left q p)
  rw [r3_val_cast hn]
  calc ((yp_norm_val p q : ℤ) * p * mroot q c - (yq_norm_val p q : ℤ) * q * mroot p c) %
        ((p * q : ℕ) : ℤ)
      ≡ (yp_norm_val p q : ℤ) * p * mroot q c - (yq_norm_val p q : ℤ) * q * mroot p c
        [ZMOD (q : ℤ)] := Int.emod_emod_of_dvd _ hd
    _ ≡ 1 * (mroot q c : ℤ) - 0 [ZMOD (q : ℤ)] := by
        refine Int.ModEq.sub (Int.ModEq.mul_right _ (yp_norm_mul_modEq_one hcop hn)) ?_
        exact Int.modEq_zero_iff_dvd.mpr ⟨(yq_norm_val p q : ℤ) * mroot p c, by ring⟩
    _ = (mroot q c : ℤ) := by ring

theorem r1_val_lt {p q : ℕ} (hn : 0 < p * q) (c : ℕ) : r1_val p q c < p * q :=
  Nat.mod_lt _ hn

theorem r3_val_lt {p q : ℕ} (hn : 0 < p * q) (c : ℕ) : r3_val p q c < p * q := by
  have hn' : (0 : ℤ) < ((p * q : ℕ) : ℤ) := by exact_mod_cast hn
  unfold r3_val
  have h1 := Int.emod_lt_of_pos
    ((((yp_norm_val p q : ℤ) * p * mroot q c - (yq_norm_val p q : ℤ) * q * mroot p c) %
      ((p * q : ℕ) : ℤ) + ((p * q : ℕ) : ℤ)) ) hn'
  have h2 := Int.emod_nonneg
    ((((yp_norm_val p q : ℤ) * p * mroot q c - (yq_norm_val p q : ℤ) * q * mroot p c) %
      ((p * q : ℕ) : ℤ) + ((p * q : ℕ) : ℤ)) ) (ne_of_gt hn')
  omega

/-- The second and fourth roots: `(n - x) % n` is `-x` modulo every divisor of `n`. -/
theorem sub_mod_modEq_neg {n x : ℕ} (hx : x ≤ n) {d : ℕ} (hdn : d ∣ n) :
    (((n - x) % n : ℕ) : ℤ) ≡ -(x : ℤ) [ZMOD (d : ℤ)] := by
  have hd : (d : ℤ) ∣ (n : ℤ) := Int.natCast_dvd_natCast.mpr hdn
  calc (((n - x) % n : ℕ) : ℤ) ≡ ((n - x : ℕ) : ℤ) [ZMOD (d : ℤ)] := by
        rw [Int.natCast_mod]
        exact Int.emod_emod_of_dvd _ hd
    _ = (n : ℤ) - (x : ℤ) := by push_cast [hx]; ring
    _ ≡ 0 - (x : ℤ) [ZMOD (d : ℤ)] :=
        Int.ModEq.sub_right _ (Int.modEq_zero_iff_dvd.mpr hd)
    _ = -(x : ℤ) := by ring

/-! ## The closed-form square root `c^((p+1)/4) mod p` for primes `p ≡ 3 (mod 4)` -/

/-- If `c` is the residue of a square `m²` modulo a prime `p ≡ 3 (mod 4)`, then the
value `mroot p c = c^((p+1)/4) mod p` computed by `decrypt` squares to `m²` mod `p`. -/
theorem mroot_sq_modEq {p : ℕ} (hp : Nat.Prime p) (hp4 : p % 4 = 3) {c m : ℕ}
    (hc : c ≡ m ^ 2 [MOD p]) : mroot p c ^ 2 ≡ m ^ 2 [MOD p] := by
  obtain ⟨k, hk⟩ : ∃ k, p + 1 = 4 * k := ⟨(p + 1) / 4, by omega⟩
  have hdiv : (p + 1) / 4 = k := by omega
  have hkpos : k ≠ 0 := by omega
  have hexp : (m ^ 2) ^ (2 * k) = m ^ (p - 1) * m ^ 2 := by
    rw [← pow_mul, ← pow_add]
    congr 1
    omega
  have h1 : mroot p c ^ 2 ≡ c ^ (2 * k) [MOD p] := by
    unfold mroot modpow
    rw [hdiv]
    calc (c ^ k % p) ^ 2 ≡ (c ^ k) ^ 2 [MOD p] := (Nat.mod_modEq _ p).pow 2
      _ = c ^ (2 * k) := by rw [← pow_mul, Nat.mul_comm]
  have h2 : c ^ (2 * k) ≡ (m ^ 2) ^ (2 * k) [MOD p] := hc.pow _
  by_cases hdvd : p ∣ m
  · have hm20 : m ^ 2 ≡ 0 [MOD p] := by
      calc m ^ 2 ≡ 0 ^ 2 [MOD p] := (Nat.modEq_zero_iff_dvd.mpr hdvd).pow 2
        _ = 0 := by norm_num
    calc mroot p c ^ 2 ≡ c ^ (2 * k) [MOD p] := h1
      _ ≡ (m ^ 2) ^ (2 * k) [MOD p] := h2
      _ ≡ 0 ^ (2 * k) [MOD p] := hm20.pow _
      _ = 0 := by rw [zero_pow (by omega : 2 * k ≠ 0)]
      _ ≡ m ^ 2 [MOD p] := hm20.symm
  · have hcop : Nat.Coprime m p :=
      Nat.coprime_comm.mp ((Nat.Prime.coprime_iff_not_dvd hp).mpr hdvd)
    have heuler : m ^ (p - 1) ≡ 1 [MOD p] := by
      have h := Nat.ModEq.pow_totient hcop
      rwa [Nat.totient_prime hp] at h
    calc mroot p c ^ 2 ≡ c ^ (2 * k) [MOD p] := h1
      _ ≡ (m ^ 2) ^ (2 * k) [MOD p] := h2
      _ = m ^ (p - 1) * m ^ 2 := hexp
      _ ≡ 1 * m ^ 2 [MOD p] := heuler.mul_right _
      _ = m ^ 2 := by ring

/-- Modulo a prime, a square root of `m²` is `m` or `-m`. -/
theorem sq_modEq_cases {p : ℕ} (hp : Nat.Prime p) {x m : ℕ} (h : x ^ 2 ≡ m ^ 2 [MOD p]) :
    (x : ℤ) ≡ (m : ℤ) [ZMOD (p : ℤ)] ∨ (x : ℤ) ≡ -(m : ℤ) [ZMOD (p : ℤ)] := by
  have hz : ((x ^ 2 : ℕ) : ℤ) ≡ ((m ^ 2 : ℕ) : ℤ) [ZMOD ((p : ℕ) : ℤ)] :=
    Int.natCast_modEq_iff.mpr h
  push_cast at hz
  have hdvd : (p : ℤ) ∣ ((m : ℤ) - x) * ((m : ℤ) + x) := by
    have hd := hz.dvd
    rw [show (m : ℤ) ^ 2 - (x : ℤ) ^ 2 = ((m : ℤ) - x) * ((m : ℤ) + x) by ring] at hd
    exact hd
  rcases Int.Prime.dvd_mul' hp hdvd with h1 | h2
  · exact Or.inl (Int.modEq_iff_dvd.mpr h1)
  · refine Or.inr (Int.modEq_iff_dvd.mpr ?_)
    rw [show -(m : ℤ) - x = -((m : ℤ) + x) by ring]
    exact dvd_neg.mpr h2

/-- CRT uniqueness: two naturals below `p * q` congruent modulo both coprime
factors are equal. -/
theorem eq_of_modEq_pq {p q a b : ℕ} (hcop : Nat.Coprime p q) (ha : a < p * q)
    (hb : b < p * q) (h1 : (a : ℤ) ≡ (b : ℤ) [ZMOD (p : ℤ)])
    (h2 : (a : ℤ) ≡ (b : ℤ) [ZMOD (q : ℤ)]) : a = b := by
  have hn1 : a ≡ b [MOD p] := Int.natCast_modEq_iff.mp h1
  have hn2 : a ≡ b [MOD q] := Int.natCast_modEq_iff.mp h2
  have hm := (Nat.modEq_and_modEq_iff_modEq_mul hcop).mp ⟨hn1, hn2⟩
  rwa [Nat.ModEq, Nat.mod_eq_of_lt ha, Nat.mod_eq_of_lt hb] at hm

/-! ## Claim C1 -/

/-- C1: for every valid key pair (`p`, `q` distinct primes, both `≡ 3 (mod 4)`,
`n = p·q`) and every message `m` in `[0, n)`, `m` is a member of the
four-element result of `decrypt (encrypt m n) (p, q)`. -/
theorem C1_message_mem_decrypt_encrypt (p q m : ℕ) (hp : Nat.Prime p) (hq : Nat.Prime q)
    (hp4 : p % 4 = 3) (hq4 : q % 4 = 3) (hpq : p ≠ q) (hm : m < p * q) :
    m ∈ decrypt (encrypt m (p * q)) (p, q) := by
  have hcop : Nat.Coprime p q := (Nat.coprime_primes hp hq).mpr hpq
  have hn : 0 < p * q := Nat.mul_pos hp.pos hq.pos
  have hn0 : p * q ≠ 0 := hn.ne'
  set c := encrypt m (p * q) with hc
  have hcn : c ≡ m ^ 2 [MOD p * q] := by
    rw [hc]; unfold encrypt modpow; exact Nat.mod_modEq _ _
  have hcp : c ≡ m ^ 2 [MOD p] := hcn.of_dvd (dvd_mul_right p q)
  have hcq : c ≡ m ^ 2 [MOD q] := hcn.of_dvd (dvd_mul_left q p)
  have hdp := sq_modEq_cases hp (mroot_sq_modEq hp hp4 hcp)
  have hdq := sq_modEq_cases hq (mroot_sq_modEq hq hq4 hcq)
  have h1p := r1_modEq_p hcop hn0 c
  have h1q := r1_modEq_q hcop hn0 c
  have h3p := r3_modEq_p hcop hn0 c
  have h3q := r3_modEq_q hcop hn0 c
  have hr1lt := r1_val_lt hn c
  have hr3lt := r3_val_lt hn c
  have h2p : (((p * q - r1_val p q c) % (p * q) : ℕ) : ℤ) ≡ -(r1_val p q c : ℤ)
      [ZMOD (p : ℤ)] := sub_mod_modEq_neg hr1lt.le (dvd_mul_right p q)
  have h2q : (((p * q - r1_val p q c) % (p * q) : ℕ) : ℤ) ≡ -(r1_val p q c : ℤ)
      [ZMOD (q : ℤ)] := sub_mod_modEq_neg hr1lt.le (dvd_mul_left q p)
  have h4p : (((p * q - r3_val p q c) % (p * q) : ℕ) : ℤ) ≡ -(r3_val p q c : ℤ)
      [ZMOD (p : ℤ)] := sub_mod_modEq_neg hr3lt.le (dvd_mul_right p q)
  have h4q : (((p * q - r3_val p q c) % (p * q) : ℕ) : ℤ) ≡ -(r3_val p q c : ℤ)
      [ZMOD (q : ℤ)] := sub_mod_modEq_neg hr3lt.le (dvd_mul_left q p)
  have hr2lt : (p * q - r1_val p q c) % (p * q) < p * q := Nat.mod_lt _ hn
  have hr4lt : (p * q - r3_val p q c) % (p * q) < p * q := Nat.mod_lt _ hn
  rw [decrypt_eq]
  rcases hdp with hmp | hmp <;> rcases hdq with hmq | hmq
  · -- both roots positive: m = r1
    have he : m = r1_val p q c :=
      eq_of_modEq_pq hcop hm hr1lt (hmp.symm.trans h1p.symm) (hmq.symm.trans h1q.symm)
    rw [he]; simp
  · -- mp ≡ m, mq ≡ -m: m = r4
    have hep : (m : ℤ) ≡ (((p * q - r3_val p q c) % (p * q) : ℕ) : ℤ) [ZMOD (p : ℤ)] := by
      have : (((p * q - r3_val p q c) % (p * q) : ℕ) : ℤ) ≡ (m : ℤ) [ZMOD (p : ℤ)] :=
        calc (((p * q - r3_val p q c) % (p * q) : ℕ) : ℤ)
            ≡ -(r3_val p q c : ℤ) [ZMOD (p : ℤ)] := h4p
          _ ≡ -(-(mroot p c : ℤ)) [ZMOD (p : ℤ)] := h3p.neg
          _ = (mroot p c : ℤ) := neg_neg _
          _ ≡ (m : ℤ) [ZMOD (p : ℤ)] := hmp
      exact this.symm
    have heq : (m : ℤ) ≡ (((p * q - r3_val p q c) % (p * q) : ℕ) : ℤ) [ZMOD (q : ℤ)] := by
      have : (((p * q - r3_val p q c) % (p * q) : ℕ) : ℤ) ≡ (m : ℤ) [ZMOD (q : ℤ)] :=
        calc (((p * q - r3_val p q c) % (p * q) : ℕ) : ℤ)
            ≡ -(r3_val p q c : ℤ) [ZMOD (q : ℤ)] := h4q
          _ ≡ -(mroot q c : ℤ) [ZMOD (q : ℤ)] := h3q.neg
          _ ≡ -(-(m : ℤ)) [ZMOD (q : ℤ)] := hmq.neg
          _ = (m : ℤ) := neg_neg _
      exact this.symm
    have he : m = (p * q - r3_val p q c) % (p * q) :=
      eq_of_modEq_pq hcop hm hr4lt hep heq
    rw [he]; simp
  · -- mp ≡ -m, mq ≡ m: m = r3
    have hep : (m : ℤ) ≡ (r3_val p q c : ℤ) [ZMOD (p : ℤ)] := by
      have : (r3_val p q c : ℤ) ≡ (m : ℤ) [ZMOD (p : ℤ)] :=
        calc (r3_val p q c : ℤ) ≡ -(mroot p c : ℤ) [ZMOD (p : ℤ)] := h3p
          _ ≡ -(-(m : ℤ)) [ZMOD (p : ℤ)] := hmp.neg
          _ = (m : ℤ) := neg_neg _
      exact this.symm
    have heq : (m : ℤ) ≡ (r3_val p q c : ℤ) [ZMOD (q : ℤ)] :=
      (h3q.trans hmq).symm
    have he : m = r3_val p q c := eq_of_modEq_pq hcop hm hr3lt hep heq
    rw [he]; simp
  · -- both roots negative: m = r2
    have hep : (m : ℤ) ≡ (((p * q - r1_val p q c) % (p * q) : ℕ) : ℤ) [ZMOD (p : ℤ)] := by
      have : (((p * q - r1_val p q c) % (p * q) : ℕ) : ℤ) ≡ (m : ℤ) [ZMOD (p : ℤ)] :=
        calc (((p * q - r1_val p q c) % (p * q) : ℕ) : ℤ)
            ≡ -(r1_val p q c : ℤ) [ZMOD (p : ℤ)] := h2p
          _ ≡ -(mroot p c : ℤ) [ZMOD (p : ℤ)] := h1p.neg
          _ ≡ -(-(m : ℤ)) [ZMOD (p : ℤ)] := hmp.neg
          _ = (m : ℤ) := neg_neg _
      exact this.symm
    have heq : (m : ℤ) ≡ (((p * q - r1_val p q c) % (p * q) : ℕ) : ℤ) [ZMOD (q : ℤ)] := by
      have : (((p * q - r1_val p q c) % (p * q) : ℕ) : ℤ) ≡ (m : ℤ) [ZMOD (q : ℤ)] :=
        calc (((p * q - r1_val p q c) % (p * q) : ℕ) : ℤ)
            ≡ -(r1_val p q c : ℤ) [ZMOD (q : ℤ)] := h2q
          _ ≡ -(mroot q c : ℤ) [ZMOD (q : ℤ)] := h1q.neg
          _ ≡ -(-(m : ℤ)) [ZMOD (q : ℤ)] := hmq.neg
          _ = (m : ℤ) := neg_neg _
      exact this.symm
    have he : m = (p * q - r1_val p q c) % (p * q) :=
      eq_of_modEq_pq hcop hm hr2lt hep heq
    rw [he]; simp

/-! ## Claim C2 -/

/-- A value congruent to `±mroot p c` squares to `c` modulo `p`. -/
theorem sq_modEq_c_of_pm {p c m : ℕ} (hp : Nat.Prime p) (hp4 : p % 4 = 3)
    (hcp : c ≡ m ^ 2 [MOD p]) {r : ℕ}
    (hr : (r : ℤ) ≡ (mroot p c : ℤ) [ZMOD (p : ℤ)] ∨
      (r : ℤ) ≡ -(mroot p c : ℤ) [ZMOD (p : ℤ)]) :
    r ^ 2 ≡ c [MOD p] := by
  have hsq : (r : ℤ) ^ 2 ≡ (mroot p c : ℤ) ^ 2 [ZMOD (p : ℤ)] := by
    rcases hr with hr | hr
    · exact hr.pow 2
    · calc (r : ℤ) ^ 2 ≡ (-(mroot p c : ℤ)) ^ 2 [ZMOD (p : ℤ)] := hr.pow 2
        _ = (mroot p c : ℤ) ^ 2 := by ring
  have hnat : r ^ 2 ≡ mroot p c ^ 2 [MOD p] := by
    have h := hsq
    rw [show ((r : ℤ)) ^ 2 = ((r ^ 2 : ℕ) : ℤ) by push_cast; ring,
      show ((mroot p c : ℤ)) ^ 2 = ((mroot p c ^ 2 : ℕ) : ℤ) by push_cast; ring] at h
    exact Int.natCast_modEq_iff.mp h
  exact hnat.trans ((mroot_sq_modEq hp hp4 hcp).trans hcp.symm)

/-- Two naturals congruent to `a` and `-a` modulo an odd prime not dividing `a`
are distinct. -/
theorem ne_of_modEq_pm {p : ℕ} (hp : Nat.Prime p) (hp2 : p ≠ 2) {a : ℤ}
    (ha : ¬ (p : ℤ) ∣ a) {x y : ℕ} (hx : (x : ℤ) ≡ a [ZMOD (p : ℤ)])
    (hy : (y : ℤ) ≡ -a [ZMOD (p : ℤ)]) : x ≠ y := by
  intro he
  rw [he] at hx
  have hd := (hx.symm.trans hy).dvd
  rw [show -a - a = -(2 * a) by ring] at hd
  rcases Int.Prime.dvd_mul' hp (dvd_neg.mp hd) with h2 | ha'
  · have h2' : p ∣ 2 := by exact_mod_cast h2
    exact hp2 ((Nat.prime_dvd_prime_iff_eq hp Nat.prime_two).mp h2')
  · exact ha ha'

/-- If `c` is a residue of `m²` mod `p` and `p` does not divide `c`, then `p` does
not divide the candidate root. -/
theorem not_dvd_mroot {p c m : ℕ} (hp : Nat.Prime p) (hp4 : p % 4 = 3)
    (hcp : c ≡ m ^ 2 [MOD p]) (hpc : ¬ p ∣ c) : ¬ p ∣ mroot p c := by
  intro hd
  apply hpc
  have hsq : mroot p c ^ 2 ≡ c [MOD p] :=
    (mroot_sq_modEq hp hp4 hcp).trans hcp.symm
  have h0 : mroot p c ^ 2 ≡ 0 [MOD p] :=
    Nat.modEq_zero_iff_dvd.mpr (dvd_pow hd two_ne_zero)
  exact Nat.modEq_zero_iff_dvd.mp (hsq.symm.trans h0)

/-- C2 (amended): for a valid key pair and a quadratic-residue ciphertext `c`,
`decrypt` returns a list of exactly four values each of which squares to `c`
mod `n`; when additionally `gcd(c, n) = 1` the four values are pairwise
distinct.  (The original claim's distinctness fails for residues sharing a
factor with `n`, e.g. `c = 49`, `n = 77`.) -/
theorem C2_roots_sq_and_distinct (p q c : ℕ) (hp : Nat.Prime p) (hq : Nat.Prime q)
    (hp4 : p % 4 = 3) (hq4 : q % 4 = 3) (hpq : p ≠ q)
    (hQR : ∃ m, c ≡ m ^ 2 [MOD p * q]) :
    (decrypt c (p, q)).length = 4 ∧
      (∀ r ∈ decrypt c (p, q), r ^ 2 ≡ c [MOD p * q]) ∧
      (Nat.Coprime c (p * q) → (decrypt c (p, q)).Pairwise Ne) := by
  obtain ⟨m, hm⟩ := hQR
  have hcop : Nat.Coprime p q := (Nat.coprime_primes hp hq).mpr hpq
  have hn : 0 < p * q := Nat.mul_pos hp.pos hq.pos
  have hn0 : p * q ≠ 0 := hn.ne'
  have hcp : c ≡ m ^ 2 [MOD p] := hm.of_dvd (dvd_mul_right p q)
  have hcq : c ≡ m ^ 2 [MOD q] := hm.of_dvd (dvd_mul_left q p)
  have h1p := r1_modEq_p hcop hn0 c
  have h1q := r1_modEq_q hcop hn0 c
  have h3p := r3_modEq_p hcop hn0 c
  have h3q := r3_modEq_q hcop hn0 c
  have hr1lt := r1_val_lt hn c
  have hr3lt := r3_val_lt hn c
  have h2p : (((p * q - r1_val p q c) % (p * q) : ℕ) : ℤ) ≡ -(r1_val p q c : ℤ)
      [ZMOD (p : ℤ)] := sub_mod_modEq_neg hr1lt.le (dvd_mul_right p q)
  have h2q : (((p * q - r1_val p q c) % (p * q) : ℕ) : ℤ) ≡ -(r1_val p q c : ℤ)
      [ZMOD (q : ℤ)] := sub_mod_modEq_neg hr1lt.le (dvd_mul_left q p)
  have h4p : (((p * q - r3_val p q c) % (p * q) : ℕ) : ℤ) ≡ -(r3_val p q c : ℤ)
      [ZMOD (p : ℤ)] := sub_mod_modEq_neg hr3lt.le (dvd_mul_right p q)
  have h4q : (((p * q - r3_val p q c) % (p * q) : ℕ) : ℤ) ≡ -(r3_val p q c : ℤ)
      [ZMOD (q : ℤ)] := sub_mod_modEq_neg hr3lt.le (dvd_mul_left q p)
  refine ⟨by rw [decrypt_eq]; rfl, ?_, ?_⟩
  · -- every returned value squares to c mod n
    intro r hr
    rw [decrypt_eq] at hr
    have hsq : ∀ s : ℕ,
        ((s : ℤ) ≡ (mroot p c : ℤ) [ZMOD (p : ℤ)] ∨
          (s : ℤ) ≡ -(mroot p c : ℤ) [ZMOD (p : ℤ)]) →
        ((s : ℤ) ≡ (mroot q c : ℤ) [ZMOD (q : ℤ)] ∨
          (s : ℤ) ≡ -(mroot q c : ℤ) [ZMOD (q : ℤ)]) →
        s ^ 2 ≡ c [MOD p * q] := fun s hsp hsq =>
      (Nat.modEq_and_modEq_iff_modEq_mul hcop).mp
        ⟨sq_modEq_c_of_pm hp hp4 hcp hsp, sq_modEq_c_of_pm hq hq4 hcq hsq⟩
    simp only [List.mem_cons, List.not_mem_nil, or_false] at hr
    rcases hr with rfl | rfl | rfl | rfl
    · exact hsq _ (Or.inl h1p) (Or.inl h1q)
    · exact hsq _ (Or.inr (h2p.trans h1p.neg)) (Or.inr (h2q.trans h1q.neg))
    · exact hsq _ (Or.inr h3p) (Or.inl h3q)
    · exact hsq _
        (Or.inl ((h4p.trans h3p.neg).trans (by rw [neg_neg])))
        (Or.inr (h4q.trans h3q.neg))
  · -- pairwise distinctness under coprimality
    intro hccop
    have hpc : ¬ p ∣ c := fun hd => hp.ne_one (Nat.dvd_one.mp
      (hccop ▸ Nat.dvd_gcd hd (dvd_mul_right p q)))
    have hqc : ¬ q ∣ c := fun hd => hq.ne_one (Nat.dvd_one.mp
      (hccop ▸ Nat.dvd_gcd hd (dvd_mul_left q p)))
    have hmp : ¬ (p : ℤ) ∣ (mroot p c : ℤ) := fun hd =>
      not_dvd_mroot hp hp4 hcp hpc (Int.natCast_dvd_natCast.mp hd)
    have hmq : ¬ (q : ℤ) ∣ (mroot q c : ℤ) := fun hd =>
      not_dvd_mroot hq hq4 hcq hqc (Int.natCast_dvd_natCast.mp hd)
    have hp2 : p ≠ 2 := by omega
    have hq2 : q ≠ 2 := by omega
    have h12 : r1_val p q c ≠ (p * q - r1_val p q c) % (p * q) :=
      ne_of_modEq_pm hp hp2 hmp h1p (h2p.trans h1p.neg)
    have h13 : r1_val p q c ≠ r3_val p q c :=
      ne_of_modEq_pm hp hp2 hmp h1p h3p
    have h14 : r1_val p q c ≠ (p * q - r3_val p q c) % (p * q) :=
      ne_of_modEq_pm hq hq2 hmq h1q (h4q.trans h3q.neg)
    have h23 : (p * q - r1_val p q c) % (p * q) ≠ r3_val p q c :=
      (ne_of_modEq_pm hq hq2 hmq h3q (h2q.trans h1q.neg)).symm
    have h24 : (p * q - r1_val p q c) % (p * q) ≠ (p * q - r3_val p q c) % (p * q) :=
      (ne_of_modEq_pm hp hp2 hmp
        ((h4p.trans h3p.neg).trans (by rw [neg_neg])) (h2p.trans h1p.neg)).symm
    have h34 : r3_val p q c ≠ (p * q - r3_val p q c) % (p * q) :=
      ne_of_modEq_pm hq hq2 hmq h3q (h4q.trans h3q.neg)
    rw [decrypt_eq]
    refine List.Pairwise.cons ?_ (List.Pairwise.cons ?_
      (List.Pairwise.cons ?_ (List.pairwise_singleton _ _)))
    · intro b hb
      simp only [List.mem_cons, List.not_mem_nil, or_false] at hb
      rcases hb with rfl | rfl | rfl
      · exact h12
      · exact h13
      · exact h14
    · intro b hb
      simp only [List.mem_cons, List.not_mem_nil, or_false] at hb
      rcases hb with rfl | rfl
      · exact h23
      · exact h24
    · intro b hb
      simp only [List.mem_cons, List.not_mem_nil, or_false] at hb
      rcases hb with rfl
      exact h34

/-- Witness for C1 at the spec's concrete scenario `p = 7`, `q = 11`, `m = 4`. -/
theorem C1_witness :
    Nat.Prime 7 ∧ Nat.Prime 11 ∧ 7 % 4 = 3 ∧ 11 % 4 = 3 ∧ (7 : ℕ) ≠ 11 ∧ 4 < 7 * 11 ∧
      4 ∈ decrypt (encrypt 4 (7 * 11)) (7, 11) :=
  ⟨by decide, by decide, by decide, by decide, by decide, by decide,
    C1_message_mem_decrypt_encrypt 7 11 4 (by decide) (by decide) (by decide) (by decide)
      (by decide) (by decide)⟩

/-- C2 counterexample: `49 = encrypt 7 77` is a nonzero quadratic residue mod 77
for the valid key `(7, 11)` with `7 ≠ 11`, yet `decrypt` returns the duplicated
list `[70, 7, 70, 7]`, not four pairwise-distinct values. -/
theorem C2_counterexample :
    Nat.Prime 7 ∧ Nat.Prime 11 ∧ 7 % 4 = 3 ∧ 11 % 4 = 3 ∧ (7 : ℕ) ≠ 11 ∧
      encrypt 7 (7 * 11) = 49 ∧ (49 : ℕ) ≠ 0 ∧
      decrypt 49 (7, 11) = [70, 7, 70, 7] ∧
      ¬ (decrypt 49 (7, 11)).Pairwise Ne := by decide

/-- Witness for the amended C2 at `p = 7`, `q = 11`, `c = 16 = 4²`. -/
theorem C2_witness :
    (∀ r ∈ decrypt 16 (7, 11), r ^ 2 ≡ 16 [MOD 7 * 11]) ∧
      (Nat.Coprime 16 (7 * 11) → (decrypt 16 (7, 11)).Pairwise Ne) :=
  (C2_roots_sq_and_distinct 7 11 16 (by decide) (by decide) (by decide) (by decide)
    (by decide) ⟨4, by decide⟩).2

/-! ## Claim C3 -/

/-- C3 counterexample: at ciphertext `0` with the valid key `(7, 11)` (`n = 77`)
`decrypt` returns `[0, 0, 0, 0]`: the claimed unconditional pairing
`r2 = n − r1` fails, since `r2 = 0` but `n − r1 = 77`. -/
theorem C3_counterexample :
    decrypt 0 (7, 11) = [0, 0, 0, 0] ∧
      (decrypt 0 (7, 11)).getD 1 0 ≠ 7 * 11 - (decrypt 0 (7, 11)).getD 0 0 := by decide

/-- C3 (amended): for every ciphertext and every private key with `n = p·q ≠ 0`
(the code reduces modulo `n`), the returned list `[r1, r2, r3, r4]` satisfies
`r2 ≡ −r1` and `r4 ≡ −r3 (mod n)`; the spec's equalities `r2 = n − r1` and
`r4 = n − r3` hold exactly when `r1 ≠ 0` resp. `r3 ≠ 0`. -/
theorem C3_root_pairing (c p q : ℕ) (hn : 0 < p * q) :
    (((decrypt c (p, q)).getD 1 0 : ℤ) ≡ -((decrypt c (p, q)).getD 0 0 : ℤ)
        [ZMOD ((p * q : ℕ) : ℤ)]) ∧
      (((decrypt c (p, q)).getD 3 0 : ℤ) ≡ -((decrypt c (p, q)).getD 2 0 : ℤ)
        [ZMOD ((p * q : ℕ) : ℤ)]) ∧
      ((decrypt c (p, q)).getD 0 0 ≠ 0 →
        (decrypt c (p, q)).getD 1 0 = p * q - (decrypt c (p, q)).getD 0 0) ∧
      ((decrypt c (p, q)).getD 2 0 ≠ 0 →
        (decrypt c (p, q)).getD 3 0 = p * q - (decrypt c (p, q)).getD 2 0) := by
  have hr1lt := r1_val_lt hn c
  have hr3lt := r3_val_lt hn c
  rw [decrypt_eq]
  simp only [List.getD_cons_zero, List.getD_cons_succ]
  refine ⟨sub_mod_modEq_neg hr1lt.le dvd_rfl, sub_mod_modEq_neg hr3lt.le dvd_rfl, ?_, ?_⟩
  · intro h0
    exact Nat.mod_eq_of_lt (by omega)
  · intro h0
    exact Nat.mod_eq_of_lt (by omega)

/-- Witness for the amended C3 at `c = 16`, key `(7, 11)`. -/
theorem C3_witness :
    (((decrypt 16 (7, 11)).getD 1 0 : ℤ) ≡ -((decrypt 16 (7, 11)).getD 0 0 : ℤ)
        [ZMOD ((7 * 11 : ℕ) : ℤ)]) ∧
      (((decrypt 16 (7, 11)).getD 3 0 : ℤ) ≡ -((decrypt 16 (7, 11)).getD 2 0 : ℤ)
        [ZMOD ((7 * 11 : ℕ) : ℤ)]) ∧
      ((decrypt 16 (7, 11)).getD 0 0 ≠ 0 →
        (decrypt 16 (7, 11)).getD 1 0 = 7 * 11 - (decrypt 16 (7, 11)).getD 0 0) ∧
      ((decrypt 16 (7, 11)).getD 2 0 ≠ 0 →
        (decrypt 16 (7, 11)).getD 3 0 = 7 * 11 - (decrypt 16 (7, 11)).getD 2 0) :=
  C3_root_pairing 16 7 11 (by decide)

/-! ## Claim C7 -/

/-- C7 counterexample: `2` is not a quadratic residue mod `77` (a residue mod 7
but not mod 11), yet `decrypt` silently returns the four candidates
`[74, 3, 52, 25]` — a plain list, no error value — and none of them squares to
`2` mod `77` (all square to `9`). -/
theorem C7_counterexample :
    (2 : ℕ) ∉ squares_mod 77 ∧
      decrypt 2 (7, 11) = [74, 3, 52, 25] ∧
      74 ^ 2 % 77 = 9 ∧ 3 ^ 2 % 77 = 9 ∧ 52 ^ 2 % 77 = 9 ∧ 25 ^ 2 % 77 = 9 := by decide

/-- C7 (amended): `decrypt` performs no residue detection and never surfaces an
error: on every input, also on non-residues, it totally returns a plain list of
exactly four candidate values (callers must validate by re-squaring; the
source's only re-squaring check lives in `sign`, not in `decrypt`). -/
theorem C7_decrypt_total (c : ℕ) (pk : ℕ × ℕ) : (decrypt c pk).length = 4 := rfl

/-! ## Claims C4–C6, C10: the signature scheme -/

/-- C4: whenever `sign` returns a signature `(r, u)`, `verify` accepts it with
the matching public key `n = p·q`. -/
theorem C4_sign_verifies (hash : List ℕ → ℕ) (nonces : ℕ → List ℕ) (message : ℕ)
    (pk : ℕ × ℕ) (fuel i r : ℕ) (u : List ℕ)
    (h : sign hash nonces message pk fuel i = some (r, u)) :
    verify hash message (r, u) (pk.1 * pk.2) = true := by
  induction fuel generalizing i with
  | zero => exact absurd h (by simp [sign])
  | succ fuel ih =>
    simp only [sign] at h
    split at h
    · split at h
      · simp only [Option.some.injEq, Prod.mk.injEq] at h
        obtain ⟨hr, hu⟩ := h
        subst hr
        subst hu
        simp only [verify, beq_iff_eq]
        assumption
      · exact ih (i + 1) h
    · exact ih (i + 1) h

/-- Witness for C4: with digest oracle constantly 4 and key `(7, 11)`, signing
succeeds at the first attempt with `r = 9` (since `9² mod 77 = 4`), and the
signature verifies. -/
theorem C4_witness :
    sign constHash4 emptyNonces 5 (7, 11) 1 0 = some (9, []) ∧
      verify constHash4 5 (9, []) ((7, 11).1 * (7, 11).2) = true :=
  ⟨by decide, C4_sign_verifies constHash4 emptyNonces 5 (7, 11) 1 0 9 [] (by decide)⟩

/-- C5 (code evaluation): the source's signing `loop` has no attempt bound and no
error value.  With the actual SHA-256 digest and a nonce oracle that repeats the
empty nonce, every attempt hashes the same bytes to the same 256-bit value
`≥ n = 77`, so `sign` fails to return within every attempt bound. -/
theorem C5_sign_never_returns :
    ∀ fuel i, sign sha256_int emptyNonces 5 (7, 11) fuel i = none := by
  intro fuel
  induction fuel with
  | zero => intro i; rfl
  | succ fuel ih =>
    intro i
    simp only [sign, emptyNonces]
    rw [if_neg (by decide)]
    exact ih (i + 1)

/-- C6 counterexample: with the actual SHA-256 digest, message 0, nonce `[0]`,
public key `n = 77` and `r = 5`: `5² mod 77 = 25` equals the digest reduced mod
77, so the claim's mod-reduced comparison holds, yet `verify` returns false —
the digest itself (`≥ 77`) is compared without reduction. -/
theorem C6_counterexample :
    ¬ (verify sha256_int 0 (5, [0]) 77 = true ↔
        encrypt 5 77 = sha256_int (to_bytes_be 0 ++ [0]) % 77) := by decide

/-- C6 (amended): a signature `(r, nonce)` is valid iff the digest value
`hash(message ‖ nonce)` is below `n` and `Encryptor(r)` equals it exactly
(equivalently, equals its reduction into `[0, n)`, which then changes nothing);
for digest values `≥ n` no signature is valid. -/
theorem C6_valid_iff (hash : List ℕ → ℕ) (message r : ℕ) (u : List ℕ) (n : ℕ)
    (hn : 0 < n) :
    verify hash message (r, u) n = true ↔
      (hash (to_bytes_be message ++ u) < n ∧
        encrypt r n = hash (to_bytes_be message ++ u) % n) := by
  have hlt : encrypt r n < n := by
    unfold encrypt modpow
    exact Nat.mod_lt _ hn
  simp only [verify, beq_iff_eq]
  constructor
  · intro he
    rw [he] at hlt
    exact ⟨hlt, by rw [Nat.mod_eq_of_lt hlt]; exact he⟩
  · rintro ⟨h1, h2⟩
    rw [h2, Nat.mod_eq_of_lt h1]

/-- Witness for the amended C6 at digest value 4 < 77 and `r = 2`
(`2² mod 77 = 4`). -/
theorem C6_witness :
    verify constHash4 0 (2, []) 77 = true ↔
      (constHash4 (to_bytes_be 0 ++ []) < 77 ∧
        encrypt 2 77 = constHash4 (to_bytes_be 0 ++ []) % 77) :=
  C6_valid_iff constHash4 0 2 [] 77 (by decide)

/-- C10: for every digest oracle (in particular SHA-256), message, signature
value, nonce and public key `n ≥ 1`: if the digest of `message ‖ nonce` read as
a big-endian integer is at least `n`, `verify` returns false — `encrypt r n` is
always strictly below `n` and `verify` never reduces the digest modulo `n`. -/
theorem C10_verify_false_of_large_hash (hash : List ℕ → ℕ) (message r : ℕ)
    (u : List ℕ) (n : ℕ) (hn : 1 ≤ n)
    (hge : n ≤ hash (to_bytes_be message ++ u)) :
    verify hash message (r, u) n = false := by
  have hlt : encrypt r n < n := by
    unfold encrypt modpow
    exact Nat.mod_lt _ hn
  simp only [verify]
  rw [beq_eq_false_iff_ne]
  omega

/-- Witness for C10 with the actual SHA-256 digest of message 5 with empty
nonce, whose 256-bit value exceeds `n = 77`. -/
theorem C10_witness :
    1 ≤ 77 ∧ 77 ≤ sha256_int (to_bytes_be 5 ++ []) ∧
      verify sha256_int 5 (9, []) 77 = false :=
  ⟨by decide, by decide,
    C10_verify_false_of_large_hash sha256_int 5 9 [] 77 (by decide) (by decide)⟩

/-! ## Claims C8, C9: key generation -/

/-- The first retry loop only ever accepts a draw `p ≡ 3 (mod 4)`. -/
theorem retry_p_mod (draw : ℕ → ℕ) :
    ∀ fuel p0 i p i2, retry_p draw fuel p0 i = some (p, i2) → p % 4 = 3 := by
  intro fuel
  induction fuel with
  | zero => intro p0 i p i2 h; exact absurd h (by simp [retry_p])
  | succ fuel ih =>
    intro p0 i p i2 h
    simp only [retry_p] at h
    split at h
    · simp only [Option.some.injEq, Prod.mk.injEq] at h
      obtain ⟨h2, h3⟩ := h
      subst h2
      assumption
    · exact ih (draw i) (i + 1) p i2 h

/-- The second retry loop only ever accepts a draw `q ≡ 3 (mod 4)` with `q ≠ p`. -/
theorem retry_q_spec (draw : ℕ → ℕ) (p : ℕ) :
    ∀ fuel q0 i q, retry_q draw p fuel q0 i = some q → q % 4 = 3 ∧ p ≠ q := by
  intro fuel
  induction fuel with
  | zero => intro q0 i q h; exact absurd h (by simp [retry_q])
  | succ fuel ih =>
    intro q0 i q h
    simp only [retry_q] at h
    split at h
    · simp only [Option.some.injEq] at h
      subst h
      assumption
    · exact ih (draw i) (i + 1) q h

/-- C9: every key pair returned by `generate_keys` satisfies the key invariant:
`p` and `q` are distinct, each is `≡ 3 (mod 4)`, and the returned public key
equals `n = p·q`. -/
theorem C9_generate_keys_invariant (draw : ℕ → ℕ) (fuel p q n : ℕ)
    (h : generate_keys draw fuel = some ((p, q), n)) :
    p % 4 = 3 ∧ q % 4 = 3 ∧ p ≠ q ∧ n = p * q := by
  unfold generate_keys at h
  cases hrp : retry_p draw fuel (draw 0) 2 with
  | none => rw [hrp] at h; exact absurd h (by simp)
  | some pi =>
    obtain ⟨p', i'⟩ := pi
    rw [hrp] at h
    dsimp only at h
    cases hrq : retry_q draw p' fuel (draw 1) i' with
    | none => rw [hrq] at h; exact absurd h (by simp)
    | some q' =>
      rw [hrq] at h
      simp only [Option.some.injEq, Prod.mk.injEq] at h
      obtain ⟨⟨hp', hq'⟩, hn'⟩ := h
      subst hp'
      subst hq'
      subst hn'
      obtain ⟨hq4, hpq⟩ := retry_q_spec draw p' fuel (draw 1) i' q' hrq
      exact ⟨retry_p_mod draw fuel (draw 0) 2 p' i' hrp, hq4, hpq, rfl⟩

/-- Witness for C9 with the prime oracle drawing 7 first and 11 afterwards. -/
theorem C9_witness :
    generate_keys (fun i => if i = 0 then 7 else 11) 1 = some ((7, 11), 77) ∧
      (7 % 4 = 3 ∧ 11 % 4 = 3 ∧ (7 : ℕ) ≠ 11 ∧ 77 = 7 * 11) :=
  ⟨by decide,
    C9_generate_keys_invariant (fun i => if i = 0 then 7 else 11) 1 7 11 77 (by decide)⟩

/-- C8 (code evaluation): the source's `while` loops have no retry bound and no
error value; with a prime oracle returning 5 (`≡ 1 mod 4`) forever,
`generate_keys` fails to return within every retry bound. -/
theorem C8_generate_keys_never_returns :
    ∀ fuel, generate_keys (fun _ => 5) fuel = none := by
  have hp : ∀ fuel i, retry_p (fun _ => 5) fuel 5 i = none := by
    intro fuel
    induction fuel with
    | zero => intro i; rfl
    | succ fuel ih =>
      intro i
      simp only [retry_p]
      norm_num
      exact ih (i + 1)
  intro fuel
  unfold generate_keys
  rw [show (fun _ => (5 : ℕ)) 0 = 5 from rfl, hp fuel 2]

